import Mathlib

/-
Shallow embedding of the divisible-token (DAP) core of the private-billing
repository, together with theorems settling the specification claims.

Modelling conventions:
* 32-byte blocks and byte strings are lists of naturals (each entry a byte
  value); the BLAKE3 compression is an uninterpreted parameter
  blake3 : List Nat -> List Nat, applied to the concatenation of the
  incremental hasher updates, exactly as the source feeds them.
* BLS12-381 scalar-field elements are naturals below the field order;
  from_le_bytes_mod_order reduces explicitly modulo that order.
* Fallible operations (every Rust unwrap, and array indexing that can
  panic) are modelled in the Option monad, none standing for a panic.
* The Groth16 verifier and the proof deserializer are uninterpreted
  parameters of the server model, since the SNARK backend is an external
  dependency of the repository.
-/

/-! ## Bytes and field encoding -/

/-- Order of the BLS12-381 scalar field, the field Fp of the source. -/
def blsScalarOrder : Nat :=
  52435875175126190479447740508185965837690552500527637822603658699938581184513

/-- Little-endian value of a byte string. -/
def fromLeBytes (bytes : List Nat) : Nat :=
  bytes.foldr (fun b acc => b + 256 * acc) 0

/-- Model of Fp256::from_le_bytes_mod_order. -/
def from_le_bytes_mod_order (bytes : List Nat) : Nat :=
  fromLeBytes bytes % blsScalarOrder

/-- Little-endian serialization of a field element to n bytes,
modelling CanonicalSerialize for Fp256. -/
def toLeBytes (n : Nat) (x : Nat) : List Nat :=
  (List.range n).map (fun i => x / 256 ^ i % 256)

/-- Model of Fp::deserialize: canonical 32-byte little-endian encodings only. -/
def deserializeFp (bytes : List Nat) : Option Nat :=
  if bytes.length = 32 ∧ fromLeBytes bytes < blsScalarOrder then
    some (fromLeBytes bytes)
  else none

/-! ## PRG (src/divtokens/src/ggm/prg.rs) -/

/-- Model of PRG::eval: both 32-byte blocks obtained by hashing
key concatenated with a single domain-separation byte. -/
def PRG.eval (blake3 : List Nat → List Nat) (key : List Nat) :
    List Nat × List Nat :=
  (blake3 (key ++ [0]), blake3 (key ++ [1]))

/-- Model of PRG::evalf: the one-branch variant, selecting the left
branch on bit false and the right branch on bit true. -/
def PRG.evalf (blake3 : List Nat → List Nat) (bit : Bool) (key : List Nat) :
    List Nat :=
  if bit then blake3 (key ++ [1]) else blake3 (key ++ [0])

/-! ## GGM tree (src/divtokens/src/ggm/mod.rs) -/

/-- Model of GGM::eval: walk the tree by the bit vector, first bit first. -/
def GGM.eval (blake3 : List Nat → List Nat) (key : List Nat) (x : List Bool) :
    List Nat :=
  x.foldl (fun out bit => PRG.evalf blake3 bit out) key

/-- Model of GGM::expand, with the same three-way match on the depth as
the source. -/
def GGM.expand (blake3 : List Nat → List Nat) (key : List Nat) :
    Nat → List (List Nat)
  | 0 => [key]
  | 1 => [(PRG.eval blake3 key).1, (PRG.eval blake3 key).2]
  | n + 2 =>
    GGM.expand blake3 (PRG.eval blake3 key).1 (n + 1) ++
      GGM.expand blake3 (PRG.eval blake3 key).2 (n + 1)

/-- The d-bit MSB-first bit vector of a natural number: bit d-1 first,
bit 0 last. -/
def bitsMsb : Nat → Nat → List Bool
  | 0, _ => []
  | d + 1, i => i.testBit d :: bitsMsb d i

/-- Model of u16::to_be_bytes. -/
def u16_to_be_bytes (x : Nat) : List Nat :=
  [x / 256 % 256, x % 256]

/-- Model of bit_vec::BitVec::from_bytes: bits of each byte, most
significant bit first. -/
def bitvecFromBytes (bytes : List Nat) : List Bool :=
  bytes.flatMap (fun b => (List.range 8).map (fun i => b / 2 ^ (8 - i - 1) % 2 = 1))

/-- Model of u16_to_bv: the big-endian 16-bit vector with the first
16 - bv_len bits split off, keeping the last bv_len bits. -/
def u16_to_bv (x : Nat) (bv_len : Nat) : List Bool :=
  (bitvecFromBytes (u16_to_be_bytes x)).drop (16 - bv_len)

/-! ## Schnorr signatures (src/divtokens/src/schnorr/mod.rs)

The inner curve is modelled as an arbitrary additive commutative group P
with a scalar action of the scalar field ZMod q; the affine-point byte
serialization and the 32-byte Poseidon sponge squeeze are uninterpreted
parameters, used identically by sign and verify as in the source. -/

/-- External primitives used by the Schnorr scheme. -/
structure SchnorrEnv (P : Type) where
  pointBytes : P → List Nat
  sponge : List Nat → List Nat

/-- Model of the Signature struct: the prover response scalar and the
32-byte verifier challenge. -/
structure SchnorrSignature (q : Nat) where
  prover_response : ZMod q
  verifier_challenge : List Nat

/-- Model of Schnorr::keygen: the secret key is the sampled scalar and the
public key is that scalar times the generator.  The source returns the
pair (public_key, SecretKey) where SecretKey repeats the public key; the
repeated copy plays no role and is dropped here. -/
def Schnorr.keygen {q : Nat} {P : Type} [AddCommGroup P] [Module (ZMod q) P]
    (generator : P) (secret_key : ZMod q) : P × ZMod q :=
  (secret_key • generator, secret_key)

/-- Model of Schnorr::sign: commit to the random scalar, squeeze the
challenge from the sponge over commitment bytes then message bytes, and
respond with random_scalar minus challenge times secret key. -/
def Schnorr.sign {q : Nat} {P : Type} [AddCommGroup P] [Module (ZMod q) P]
    (env : SchnorrEnv P) (generator : P) (sk : ZMod q) (message : Nat)
    (random_scalar : ZMod q) : SchnorrSignature q :=
  let prover_commitment : P := random_scalar • generator
  let hash_input : List Nat := env.pointBytes prover_commitment ++ toLeBytes 32 message
  let verifier_challenge : List Nat := env.sponge hash_input
  let verifier_challenge_fe : ZMod q := (fromLeBytes verifier_challenge : Nat)
  let prover_response : ZMod q := random_scalar - verifier_challenge_fe * sk
  ⟨prover_response, verifier_challenge⟩

/-- Model of Schnorr::verify: recompute the claimed prover commitment as
response times generator plus challenge times public key, squeeze the
challenge again and compare byte-wise. -/
def Schnorr.verify {q : Nat} {P : Type} [AddCommGroup P] [Module (ZMod q) P]
    (env : SchnorrEnv P) (generator : P) (pk : P) (message : Nat)
    (signature : SchnorrSignature q) : Bool :=
  let verifier_challenge_fe : ZMod q := (fromLeBytes signature.verifier_challenge : Nat)
  let claimed_prover_commitment : P :=
    signature.prover_response • generator + verifier_challenge_fe • pk
  let hash_input : List Nat :=
    env.pointBytes claimed_prover_commitment ++ toLeBytes 32 message
  let obtained_verifier_challenge : List Nat := env.sponge hash_input
  signature.verifier_challenge == obtained_verifier_challenge

/-! ## DAP message and coin types (src/divtokens/src/dap/types.rs,
src/divtokens/src/dap/messages.rs) -/

/-- Model of the Coin struct. -/
structure Coin where
  denom : Nat
  key : List Nat
  instance_bytes : List Nat
  proof_bytes : List Nat

/-- Model of RedeemRequest. -/
structure RedeemRequest where
  coins : List Coin

/-- Model of IssueRequest: a serialized field element. -/
structure IssueRequest where
  com : List Nat

/-- Model of IssueResponse, carrying the serialized signature. -/
structure IssueResponse where
  prover_response : List Nat
  verifier_challenge : List Nat

/-! ## Server issue (src/divtokens/src/dap/server.rs, issue)

The source constructs a fresh ark_std::test_rng at the top of every issue
call; test_rng is seeded with a fixed constant, so the scalar that sign
samples from it is one fixed value, modelled by the parameter
test_rng_scalar passed unchanged to every call. -/

/-- Model of Server::issue: deserialize the commitment, sign it with the
Schnorr secret key using the fixed test_rng nonce, and serialize the
prover response. -/
def Server.issue {q : Nat} {P : Type} [AddCommGroup P] [Module (ZMod q) P]
    (env : SchnorrEnv P) (generator : P) (sk : ZMod q)
    (scalarBytes : ZMod q → List Nat) (test_rng_scalar : ZMod q)
    (req : IssueRequest) : Option IssueResponse := do
  let com ← deserializeFp req.com
  let sig := Schnorr.sign env generator sk com test_rng_scalar
  some ⟨scalarBytes sig.prover_response, sig.verifier_challenge⟩

/-- A sequence of issue calls on one server: the Schnorr key is fixed and
no server state is read or written by issue, so the calls are a map. -/
def Server.issueCalls {q : Nat} {P : Type} [AddCommGroup P] [Module (ZMod q) P]
    (env : SchnorrEnv P) (generator : P) (sk : ZMod q)
    (scalarBytes : ZMod q → List Nat) (test_rng_scalar : ZMod q)
    (reqs : List IssueRequest) : List (Option IssueResponse) :=
  reqs.map (Server.issue env generator sk scalarBytes test_rng_scalar)

/-! ## Server redeem (src/divtokens/src/dap/server.rs, redeem)

The double-spend index self.hset is modelled as a list of field elements
carrying the set of already-seen leaves; insertion is cons and the
membership test is list membership, which agrees with the HashSet because
an element is only ever inserted after a failed membership test. -/

/-- HEIGHT12 from types.rs: the index into groth_vks that redeem consults
for every coin. -/
def HEIGHT12 : Nat := 12

/-- External primitives of the redeem path: the BLAKE3 compression for the
GGM expansion, the Groth16 proof deserializer, and the Groth16 verifier
applied to the index of the verifying key consulted, the single public
input, and the deserialized proof. -/
structure RedeemEnv where
  blake3 : List Nat → List Nat
  deserProof : List Nat → Option (List Nat)
  grothVerify : Nat → Nat → List Nat → Bool

/-- Inner loop of Server::redeem over the expanded leaf blocks of one coin,
j being the loop counter: the first block must match the deserialized
instance, every leaf must be absent from the double-spend set, and each
accepted leaf is inserted into the set immediately.  A false first
component models the early valid = false return; the second component is
the double-spend set as mutated so far, which the early returns of the
source do not roll back. -/
def Server.redeemLeaves (inst : Nat) (hset : List Nat) (j : Nat) :
    List (List Nat) → Bool × List Nat
  | [] => (true, hset)
  | bytes :: rest =>
    let leaf := from_le_bytes_mod_order bytes
    if j = 0 ∧ leaf ≠ inst then (false, hset)
    else if leaf ∈ hset then (false, hset)
    else Server.redeemLeaves inst (leaf :: hset) (j + 1) rest

/-- Model of the loop of Server::redeem over the coin vector: per coin,
deserialize the instance and the proof, expand the GGM subkey to depth
denom, run the leaf loop, and only afterwards verify the Groth16 proof
against the verifying key at index HEIGHT12, in the order of the source.
The none result models a deserialization panic; otherwise the valid flag
of the response is paired with the final double-spend set. -/
def Server.redeemCoins (env : RedeemEnv) (hset : List Nat) :
    List Coin → Option (Bool × List Nat)
  | [] => some (true, hset)
  | c :: rest =>
    match deserializeFp c.instance_bytes with
    | none => none
    | some inst =>
      match env.deserProof c.proof_bytes with
      | none => none
      | some proof =>
        match Server.redeemLeaves inst hset 0
            (GGM.expand env.blake3 c.key c.denom) with
        | (false, h) => some (false, h)
        | (true, h) =>
          if env.grothVerify HEIGHT12 inst proof then
            Server.redeemCoins env h rest
          else some (false, h)

/-- Model of Server::redeem on a request. -/
def Server.redeem (env : RedeemEnv) (hset : List Nat) (req : RedeemRequest) :
    Option (Bool × List Nat) :=
  Server.redeemCoins env hset req.coins

/-- The leaves of one coin: the field elements of the blocks of the GGM
expansion of its key to depth denom. -/
def coinLeaves (blake3 : List Nat → List Nat) (c : Coin) : List Nat :=
  (GGM.expand blake3 c.key c.denom).map from_le_bytes_mod_order

/-- The leaf set of a redeem request: the union over its coins. -/
def requestLeaves (blake3 : List Nat → List Nat) (req : RedeemRequest) :
    List Nat :=
  req.coins.flatMap (coinLeaves blake3)

/-- A sequence of redeem calls on one server, each call receiving the
double-spend set left by the previous one.  A panicking call ends the
run. -/
def Server.redeemRun (env : RedeemEnv) (hset : List Nat) :
    List RedeemRequest → List (Bool × List Nat)
  | [] => []
  | r :: rs =>
    match Server.redeem env hset r with
    | none => []
    | some (b, h) => (b, h) :: Server.redeemRun env h rs

/-! ## Client (src/divtokens/src/dap/client.rs) -/

/-- The fields of a wallet entry read by precompute_proofs: the master key
and the leaves.  The remaining fields of the Entry struct (smt, root,
com, open, sig, coins) feed only the circuit whose Groth16 proof is
abstracted as the proof_bytes parameter below. -/
structure WalletEntry where
  key : List Nat
  leaves : List Nat

/-- Model of the wallet entry built by Client::issue_request for a wallet
of the given height: the leaves are the field elements of the GGM
expansion of the master key. -/
def Client.issueWallet (blake3 : List Nat → List Nat) (key : List Nat)
    (height : Nat) : WalletEntry :=
  ⟨key, (GGM.expand blake3 key height).map from_le_bytes_mod_order⟩

/-- Model of the coin pushed by Client::precompute_proofs: denom is the
literal 0, the key field holds the master key of the entry, and the
instance bytes serialize entry.leaves[0] (the source indexing panics on
an empty wallet; the default is never reached for the wallets of the
protocol).  The Groth16 proof bytes are abstracted as a parameter. -/
def Client.precompute_coin (proof_bytes : List Nat) (entry : WalletEntry) :
    Coin :=
  ⟨0, entry.key, toLeBytes 32 (entry.leaves.getD 0 0), proof_bytes⟩

/-! ## Sparse Merkle tree (src/divtokens/src/merkle_tree/mod.rs)

Field elements are naturals and the Poseidon hash_two is an uninterpreted
parameter hash : Nat -> Nat -> Nat.  The node storage, a BTreeMap from
u64 positions to field elements, is a function Nat -> Option Nat, and the
ascending-key iteration order of BTreeMap and BTreeSet is modelled by
iterating sorted lists; BTreeSet insertion is sorted insertion without
duplicates.  Both error variants of the source (InvalidLeaf and
InvalidPathNodes) collapse to none. -/

/-- Node map of the sparse Merkle tree. -/
def SMTree : Type := Nat → Option Nat

/-- Map update, modelling BTreeMap::insert. -/
def SMTree.update (t : SMTree) (p v : Nat) : SMTree :=
  fun x => if x = p then some v else t x

/-- The empty node map. -/
def SMTree.empty : SMTree :=
  fun _ => none

/-- Position of the left child. -/
def left_child (index : Nat) : Nat := 2 * index + 1

/-- Position of the right child. -/
def right_child (index : Nat) : Nat := 2 * index + 2

/-- Whether a position is a left child. -/
def is_left_child (index : Nat) : Bool := index % 2 = 1

/-- Parent of a position, none at the root. -/
def parentIdx (index : Nat) : Option Nat :=
  if index > 0 then some ((index - 1) / 2) else none

/-- Sibling of a position, none at the root. -/
def siblingIdx (index : Nat) : Option Nat :=
  if index = 0 then none
  else if is_left_child index then some (index + 1)
  else some (index - 1)

/-- Leaf position of a leaf index: index + 2^height - 1. -/
def convert_index_to_last_level (index height : Nat) : Nat :=
  index + 2 ^ height - 1

/-- Sorted insertion without duplicates, modelling BTreeSet::insert
together with the ascending iteration order. -/
def insertSorted (x : Nat) : List Nat → List Nat
  | [] => [x]
  | y :: ys =>
    if x < y then x :: y :: ys
    else if x = y then y :: ys
    else y :: insertSorted x ys

/-- First loop of insert_batch: write each leaf at its last-level
position and collect the parents of the written positions.  The parent
unwrap panics (none) only in the degenerate height-0 tree. -/
def SMT.insertLeaves (height : Nat) :
    SMTree × List Nat → List (Nat × Nat) → Option (SMTree × List Nat)
  | (t, s), [] => some (t, s)
  | (t, s), (i, leaf) :: rest =>
    let true_index := 2 ^ height - 1 + i
    match parentIdx true_index with
    | none => none
    | some p =>
      SMT.insertLeaves height
        (SMTree.update t true_index leaf, insertSorted p s) rest

/-- Inner loop of one level of insert_batch: hash the two children of
every index of the sorted level set, insert the result, and collect the
parents for the next level; on reaching the root the loop breaks,
discarding the remaining indices.  Reading a missing child is the unwrap
panic of the source. -/
def SMT.levelStep (hash : Nat → Nat → Nat) :
    SMTree → List Nat → Option (SMTree × List Nat)
  | t, [] => some (t, [])
  | t, i :: rest =>
    match t (left_child i), t (right_child i) with
    | some l, some r =>
      let t' := SMTree.update t i (hash l r)
      match parentIdx i with
      | none => some (t', [])
      | some p =>
        match SMT.levelStep hash t' rest with
        | none => none
        | some (t'', s) => some (t'', insertSorted p s)
    | _, _ => none

/-- The level loop of insert_batch, run once per level 0..height. -/
def SMT.levels (hash : Nat → Nat → Nat) :
    Nat → SMTree → List Nat → Option SMTree
  | 0, t, _ => some t
  | n + 1, t, idxs =>
    match SMT.levelStep hash t idxs with
    | none => none
    | some (t', idxs') => SMT.levels hash n t' idxs'

/-- Model of SparseMerkleTree::insert_batch. -/
def SMT.insert_batch (hash : Nat → Nat → Nat) (height : Nat) (t : SMTree)
    (leaves : List (Nat × Nat)) : Option SMTree :=
  match SMT.insertLeaves height (t, []) leaves with
  | none => none
  | some (t1, idxs) => SMT.levels hash height t1 idxs

/-- Model of SparseMerkleTree::new_sequential on an enumerated batch,
starting from the empty map as new does. -/
def SMT.new_sequential (hash : Nat → Nat → Nat) (height : Nat)
    (leaves : List Nat) : Option SMTree :=
  SMT.insert_batch hash height SMTree.empty leaves.enum

/-- Model of SparseMerkleTree::root: the node at position 0, whose
absence is the unwrap panic of the source. -/
def SMT.root (t : SMTree) : Option Nat := t 0

/-- The walk of generate_membership_proof from a position up to the
root, collecting the (left, right) sibling pairs; missing nodes are the
unwrap panics of the source. -/
def SMT.genPath (t : SMTree) (cur : Nat) : Option (List (Nat × Nat)) :=
  if _hcur : cur = 0 then some []
  else
    match siblingIdx cur with
    | none => none
    | some sib =>
      match t cur, t sib with
      | some c, some s =>
        let pair := if is_left_child cur then (c, s) else (s, c)
        match SMT.genPath t ((cur - 1) / 2) with
        | none => none
        | some rest => some (pair :: rest)
      | _, _ => none
termination_by cur
decreasing_by omega

/-- Model of SparseMerkleTree::generate_membership_proof.  The source
writes the pairs into an array of length N; the walk from a leaf of a
full height-N tree fills exactly the N slots collected here. -/
def SMT.generate_membership_proof (t : SMTree) (height index : Nat) :
    Option (List (Nat × Nat)) :=
  SMT.genPath t (convert_index_to_last_level index height)

/-- One step of the loop of Path::calculate_root: the running value must
appear in the pair, and the pair is hashed. -/
def Path.calcStep (hash : Nat → Nat → Nat) (prev : Nat) (pair : Nat × Nat) :
    Option Nat :=
  if prev ≠ pair.1 ∧ prev ≠ pair.2 then none else some (hash pair.1 pair.2)

/-- Model of Path::calculate_root: the leaf must appear in the first
pair (otherwise InvalidLeaf), then the loop folds over all pairs;
indexing path[0] of a height-0 path panics. -/
def Path.calculate_root (hash : Nat → Nat → Nat) (path : List (Nat × Nat))
    (leaf : Nat) : Option Nat :=
  match path with
  | [] => none
  | p0 :: _ =>
    if leaf ≠ p0.1 ∧ leaf ≠ p0.2 then none
    else path.foldlM (Path.calcStep hash) leaf

/-- Model of Path::check_membership: recompute the root and compare. -/
def Path.check_membership (hash : Nat → Nat → Nat)
    (path : List (Nat × Nat)) (root_hash leaf : Nat) : Option Bool :=
  match Path.calculate_root hash path leaf with
  | none => none
  | some root => some (root == root_hash)

/-- The value held at a position of the full tree over a batch of
leaves: the reference value that insert_batch computes, leaves at the
last level and Poseidon of the two children above. -/
def SMT.nodeVal (hash : Nat → Nat → Nat) (height : Nat)
    (leaves : List Nat) (p : Nat) : Nat :=
  if 2 ^ height - 1 ≤ p then leaves.getD (p - (2 ^ height - 1)) 0
  else
    hash (SMT.nodeVal hash height leaves (2 * p + 1))
      (SMT.nodeVal hash height leaves (2 * p + 2))
termination_by 2 ^ height - 1 - p
decreasing_by
  all_goals omega

/-- The index of the sibling leaf of leaf index i: the other leaf under
the same parent. -/
def sibLeafIndex (i : Nat) : Nat :=
  if i % 2 = 0 then i + 1 else i - 1

/-- The full pipeline of claim C4: build the tree sequentially, read the
root, generate the membership proof for leaf index i, and check the
membership of the value x against the root. -/
def SMT.buildAndCheck (hash : Nat → Nat → Nat) (height : Nat)
    (leaves : List Nat) (i x : Nat) : Option Bool :=
  match SMT.new_sequential hash height leaves with
  | none => none
  | some t =>
    match SMT.root t with
    | none => none
    | some root =>
      match SMT.generate_membership_proof t height i with
      | none => none
      | some path => Path.check_membership hash path root x

/-! ## Concrete instantiations used by witness and counterexample
theorems -/

/-- A concrete stand-in Poseidon hash for witness theorems. -/
def wHash : Nat → Nat → Nat :=
  fun a b => a + 2 * b + 5

/-- A concrete stand-in hash used by witness theorems to instantiate the
uninterpreted BLAKE3 parameter. -/
def testHash : List Nat → List Nat :=
  fun l => [(l.foldr (fun a b => a + 2 * b) 1) % 251]

/-- Redeem environment whose Groth16 verifier accepts everything. -/
def acceptAllEnv : RedeemEnv :=
  ⟨testHash, fun pb => some pb, fun _ _ _ => true⟩

/-- Redeem environment whose Groth16 verifier rejects everything,
standing for a request carrying an invalid proof. -/
def rejectAllEnv : RedeemEnv :=
  ⟨testHash, fun pb => some pb, fun _ _ _ => false⟩

/-- Redeem environment whose Groth16 verifier accepts exactly under the
verifying-key index 0, the index of the denomination of the coin used
with it below. -/
def vkZeroOnlyEnv : RedeemEnv :=
  ⟨testHash, fun pb => some pb, fun idx _ _ => idx == 0⟩

/-- A depth-zero coin of value v: its key and instance bytes both
serialize v, so the leaf equals the instance and the binding check of
redeem passes. -/
def wCoin (v : Nat) : Coin :=
  ⟨0, toLeBytes 32 v, toLeBytes 32 v, []⟩

/-- A concrete Schnorr environment over the group ZMod 7, used by witness
theorems. -/
def wSchnorrEnv : SchnorrEnv (ZMod 7) :=
  ⟨fun p => [p.val], fun l => [l.length % 256]⟩

/-- A concrete scalar serializer for witness theorems. -/
def wScalarBytes : ZMod 7 → List Nat :=
  fun s => [s.val]

/-- A concrete issue request whose commitment bytes serialize 1. -/
def wIssueReq : IssueRequest :=
  ⟨toLeBytes 32 1⟩

/-! ### Basic GGM lemmas -/

theorem GGM.expand_succ (blake3 : List Nat → List Nat) (key : List Nat)
    (d : Nat) :
    GGM.expand blake3 key (d + 1) =
      GGM.expand blake3 (PRG.eval blake3 key).1 d ++
        GGM.expand blake3 (PRG.eval blake3 key).2 d := by
  cases d with
  | zero => simp [GGM.expand]
  | succ n => rfl

theorem GGM.expand_length (blake3 : List Nat → List Nat) (key : List Nat)
    (d : Nat) : (GGM.expand blake3 key d).length = 2 ^ d := by
  induction d generalizing key with
  | zero => rfl
  | succ n ih =>
    rw [GGM.expand_succ]
    rw [List.length_append, ih, ih, Nat.pow_succ]
    ring

theorem bitsMsb_congr {d a b : Nat}
    (h : ∀ j, j < d → a.testBit j = b.testBit j) :
    bitsMsb d a = bitsMsb d b := by
  induction d with
  | zero => rfl
  | succ n ih =>
    simp only [bitsMsb]
    rw [h n (Nat.lt_succ_self n), ih (fun j hj => h j (Nat.lt_succ_of_lt hj))]

theorem GGM.expand_get (blake3 : List Nat → List Nat) (key : List Nat)
    (d i : Nat) (hi : i < 2 ^ d) :
    (GGM.expand blake3 key d).get? i =
      some (GGM.eval blake3 key (bitsMsb d i)) := by
  induction d generalizing key i with
  | zero =>
    interval_cases i
    rfl
  | succ n ih =>
    rw [GGM.expand_succ]
    by_cases hlt : i < 2 ^ n
    · rw [List.get?_append (by rw [GGM.expand_length]; exact hlt)]
      rw [ih _ _ hlt]
      have hbit : i.testBit n = false := Nat.testBit_lt_two_pow hlt
      simp [bitsMsb, hbit, GGM.eval, PRG.evalf, PRG.eval]
    · have hge : 2 ^ n ≤ i := Nat.le_of_not_lt hlt
      rw [List.get?_append_right (by rw [GGM.expand_length]; exact hge)]
      rw [GGM.expand_length]
      have hsplit : i = 2 ^ n + (i - 2 ^ n) := by omega
      have hi' : i - 2 ^ n < 2 ^ n := by
        have h2 : 2 ^ (n + 1) = 2 ^ n + 2 ^ n := by rw [Nat.pow_succ]; ring
        omega
      rw [ih _ _ hi']
      have hbit : i.testBit n = true := by
        rw [hsplit, Nat.testBit_two_pow_add_eq,
          Nat.testBit_lt_two_pow hi']
        rfl
      have hlow : bitsMsb n (i - 2 ^ n) = bitsMsb n i := by
        refine bitsMsb_congr (fun j hj => ?_)
        conv_rhs => rw [hsplit]
        rw [Nat.testBit_two_pow_add_gt hj]
      simp [bitsMsb, hbit, hlow, GGM.eval, PRG.evalf, PRG.eval]

theorem bitsMsb_drop {d m x : Nat} (h : m ≤ d) :
    (bitsMsb d x).drop (d - m) = bitsMsb m x := by
  induction d with
  | zero =>
    have : m = 0 := Nat.le_zero.mp h
    simp [this]
  | succ n ih =>
    by_cases hm : m = n + 1
    · simp [hm]
    · have hle : m ≤ n := by omega
      have : n + 1 - m = (n - m) + 1 := by omega
      rw [this]
      simp only [bitsMsb, List.drop_succ_cons]
      exact ih hle

theorem bitvecFromBytes_u16 {x : Nat} (hx : x < 2 ^ 16) :
    bitvecFromBytes (u16_to_be_bytes x) = bitsMsb 16 x := by
  have hx' : x < 65536 := by omega
  simp only [bitvecFromBytes, u16_to_be_bytes, bitsMsb]
  norm_num [List.range_succ]
  simp only [Nat.testBit_to_div_mod, decide_eq_decide]
  norm_num
  omega

/-! ### Claim C7: PRG agreement -/

/-- C7: PRG::eval returns the pair of BLAKE3 hashes of the key extended by
the domain bytes 0 and 1, and this pair equals the two one-branch
PRG::evalf outputs, left branch on bit 0 and right branch on bit 1. -/
theorem prg_eval_evalf_agreement (blake3 : List Nat → List Nat)
    (k : List Nat) :
    PRG.eval blake3 k = (blake3 (k ++ [0]), blake3 (k ++ [1])) ∧
      PRG.eval blake3 k = (PRG.evalf blake3 false k, PRG.evalf blake3 true k) := by
  constructor
  · rfl
  · simp [PRG.eval, PRG.evalf]

/-! ### Claim C6: GGM consistency -/

/-- C6: for every key, depth d and index i below 2 to the d, the i-th block
of GGM::expand equals GGM::eval at the d-bit MSB-first bit vector of i;
moreover expand at depth 0 is the singleton key, and for positive depth
expand is the concatenation of the expansions of the two PRG children. -/
theorem ggm_expand_eval_consistency (blake3 : List Nat → List Nat)
    (k : List Nat) (d : Nat) :
    (∀ i, i < 2 ^ d →
      (GGM.expand blake3 k d).get? i = some (GGM.eval blake3 k (bitsMsb d i))) ∧
    GGM.expand blake3 k 0 = [k] ∧
    (1 ≤ d →
      GGM.expand blake3 k d =
        GGM.expand blake3 (PRG.eval blake3 k).1 (d - 1) ++
          GGM.expand blake3 (PRG.eval blake3 k).2 (d - 1)) := by
  refine ⟨fun i hi => GGM.expand_get blake3 k d i hi, rfl, fun hd => ?_⟩
  obtain ⟨e, rfl⟩ : ∃ e, d = e + 1 := ⟨d - 1, by omega⟩
  simp only [Nat.add_sub_cancel]
  exact GGM.expand_succ blake3 k e

/-- Witness for C6 at a concrete hash, key, depth 2 and index 3. -/
theorem ggm_expand_eval_consistency_witness :
    (GGM.expand testHash [3] 2).get? 3 =
      some (GGM.eval testHash [3] (bitsMsb 2 3)) ∧
    GGM.expand testHash [3] 0 = [[3]] ∧
    GGM.expand testHash [3] 2 =
      GGM.expand testHash (PRG.eval testHash [3]).1 1 ++
        GGM.expand testHash (PRG.eval testHash [3]).2 1 := by
  obtain ⟨h1, h2, h3⟩ := ggm_expand_eval_consistency testHash [3] 2
  exact ⟨h1 3 (by decide), h2, h3 (by decide)⟩

/-! ### Claim C10: u16_to_bv -/

/-- C10: for a 16-bit value x and a length at most 16, u16_to_bv returns
exactly bv_len bits, the low bv_len bits of x in big-endian order, that
is bit bv_len - 1 of x first down to bit 0 of x last. -/
theorem u16_to_bv_low_bits_be (x bv_len : Nat) (hx : x < 2 ^ 16)
    (hlen : bv_len ≤ 16) :
    u16_to_bv x bv_len = bitsMsb bv_len x ∧
      (u16_to_bv x bv_len).length = bv_len := by
  have h : u16_to_bv x bv_len = bitsMsb bv_len x := by
    rw [u16_to_bv, bitvecFromBytes_u16 hx, bitsMsb_drop hlen]
  constructor
  · exact h
  · rw [h]
    clear h
    induction bv_len with
    | zero => rfl
    | succ n ih => simp [bitsMsb, ih (by omega)]

/-- Witness for C10 at x = 43981 and bv_len = 12. -/
theorem u16_to_bv_low_bits_be_witness :
    u16_to_bv 43981 12 = bitsMsb 12 43981 ∧
      (u16_to_bv 43981 12).length = 12 :=
  u16_to_bv_low_bits_be 43981 12 (by norm_num) (by norm_num)

/-! ### Claim C8: Schnorr round-trip -/

/-- C8: for every message, every keypair produced by keygen and every
random scalar drawn by sign, verify accepts the signature produced by
sign. -/
theorem schnorr_sign_verify {q : Nat} {P : Type} [AddCommGroup P]
    [Module (ZMod q) P] (env : SchnorrEnv P) (generator : P)
    (x k : ZMod q) (m : Nat) :
    Schnorr.verify env generator (Schnorr.keygen generator x).1 m
      (Schnorr.sign env generator x m k) = true := by
  unfold Schnorr.verify Schnorr.sign Schnorr.keygen
  simp only
  have hpoint :
      (k - (fromLeBytes (env.sponge (env.pointBytes (k • generator) ++
          toLeBytes 32 m)) : ZMod q) * x) • generator +
        ((fromLeBytes (env.sponge (env.pointBytes (k • generator) ++
          toLeBytes 32 m)) : ZMod q)) • x • generator = k • generator := by
    rw [sub_smul, smul_smul, sub_add_cancel]
  rw [hpoint]
  simp

/-! ### Claim C9: issue is deterministic -/

/-- C9: over any sequence of issue calls on one server, two calls that
receive the same request produce identical responses, because the Schnorr
nonce comes from a freshly created fixed-seed rng on each call. -/
theorem issue_deterministic {q : Nat} {P : Type} [AddCommGroup P]
    [Module (ZMod q) P] (env : SchnorrEnv P) (generator : P) (sk : ZMod q)
    (scalarBytes : ZMod q → List Nat) (test_rng_scalar : ZMod q)
    (reqs : List IssueRequest) (i j : Nat) (r : IssueRequest)
    (hi : reqs.get? i = some r) (hj : reqs.get? j = some r) :
    (Server.issueCalls env generator sk scalarBytes test_rng_scalar reqs).get? i =
      (Server.issueCalls env generator sk scalarBytes test_rng_scalar reqs).get? j := by
  unfold Server.issueCalls
  rw [List.get?_map, List.get?_map, hi, hj]

/-! ### Redeem invariants -/

theorem Server.redeemLeaves_mono {inst : Nat} :
    ∀ (lbs : List (List Nat)) (hset : List Nat) (j x : Nat),
      x ∈ hset → x ∈ (Server.redeemLeaves inst hset j lbs).2 := by
  intro lbs
  induction lbs with
  | nil => intro hset j x hx; exact hx
  | cons bs rest ih =>
    intro hset j x hx
    simp only [Server.redeemLeaves]
    by_cases h1 : j = 0 ∧ from_le_bytes_mod_order bs ≠ inst
    · rw [if_pos h1]; exact hx
    · rw [if_neg h1]
      by_cases h2 : from_le_bytes_mod_order bs ∈ hset
      · rw [if_pos h2]; exact hx
      · rw [if_neg h2]
        exact ih _ _ x (List.mem_cons_of_mem _ hx)

theorem Server.redeemLeaves_true {inst : Nat} :
    ∀ (lbs : List (List Nat)) (hset : List Nat) (j : Nat) (h' : List Nat),
      Server.redeemLeaves inst hset j lbs = (true, h') →
      ∀ bs ∈ lbs, from_le_bytes_mod_order bs ∈ h' ∧
        from_le_bytes_mod_order bs ∉ hset := by
  intro lbs
  induction lbs with
  | nil => intro hset j h' heq bs hb; cases hb
  | cons bs0 rest ih =>
    intro hset j h' heq bs hb
    simp only [Server.redeemLeaves] at heq
    by_cases h1 : j = 0 ∧ from_le_bytes_mod_order bs0 ≠ inst
    · rw [if_pos h1] at heq
      cases heq
    · rw [if_neg h1] at heq
      by_cases h2 : from_le_bytes_mod_order bs0 ∈ hset
      · rw [if_pos h2] at heq
        cases heq
      · rw [if_neg h2] at heq
        rcases List.mem_cons.mp hb with rfl | hmem
        · refine ⟨?_, h2⟩
          have hm := @Server.redeemLeaves_mono inst rest
            (from_le_bytes_mod_order bs :: hset) (j + 1)
            (from_le_bytes_mod_order bs) (List.mem_cons_self _ _)
          rw [heq] at hm
          exact hm
        · have hrec := ih _ _ _ heq bs hmem
          exact ⟨hrec.1, fun hc => hrec.2 (List.mem_cons_of_mem _ hc)⟩

theorem Server.redeemCoins_mono {env : RedeemEnv} :
    ∀ (coins : List Coin) (hset : List Nat) (b : Bool) (h' : List Nat),
      Server.redeemCoins env hset coins = some (b, h') →
      ∀ x ∈ hset, x ∈ h' := by
  intro coins
  induction coins with
  | nil =>
    intro hset b h' heq x hx
    simp only [Server.redeemCoins] at heq
    cases heq
    exact hx
  | cons c rest ih =>
    intro hset b h' heq x hx
    cases hdi : deserializeFp c.instance_bytes with
    | none => simp only [Server.redeemCoins, hdi] at heq; cases heq
    | some inst =>
      cases hdp : env.deserProof c.proof_bytes with
      | none => simp only [Server.redeemCoins, hdi, hdp] at heq; cases heq
      | some proof =>
        rcases hrl : Server.redeemLeaves inst hset 0
            (GGM.expand env.blake3 c.key c.denom) with ⟨bb, hh⟩
        have hsub : x ∈ hh := by
          have hm := @Server.redeemLeaves_mono inst
            (GGM.expand env.blake3 c.key c.denom) hset 0 x hx
          rw [hrl] at hm
          exact hm
        cases bb with
        | false =>
          simp only [Server.redeemCoins, hdi, hdp, hrl] at heq
          cases heq
          exact hsub
        | true =>
          simp only [Server.redeemCoins, hdi, hdp, hrl] at heq
          by_cases hv : env.grothVerify HEIGHT12 inst proof
          · rw [if_pos hv] at heq
            exact ih _ _ _ heq x hsub
          · rw [if_neg hv] at heq
            cases heq
            exact hsub

theorem Server.redeemCoins_true {env : RedeemEnv} :
    ∀ (coins : List Coin) (hset h' : List Nat),
      Server.redeemCoins env hset coins = some (true, h') →
      ∀ c ∈ coins, ∀ l ∈ coinLeaves env.blake3 c, l ∈ h' ∧ l ∉ hset := by
  intro coins
  induction coins with
  | nil => intro hset h' heq c hc; cases hc
  | cons c0 rest ih =>
    intro hset h' heq c hc l hl
    cases hdi : deserializeFp c0.instance_bytes with
    | none => simp only [Server.redeemCoins, hdi] at heq; cases heq
    | some inst =>
      cases hdp : env.deserProof c0.proof_bytes with
      | none => simp only [Server.redeemCoins, hdi, hdp] at heq; cases heq
      | some proof =>
        rcases hrl : Server.redeemLeaves inst hset 0
            (GGM.expand env.blake3 c0.key c0.denom) with ⟨bb, hh⟩
        cases bb with
        | false =>
          simp only [Server.redeemCoins, hdi, hdp, hrl] at heq
          cases heq
        | true =>
          simp only [Server.redeemCoins, hdi, hdp, hrl] at heq
          by_cases hv : env.grothVerify HEIGHT12 inst proof
          · rw [if_pos hv] at heq
            rcases List.mem_cons.mp hc with rfl | hcrest
            · obtain ⟨bs, hb, rfl⟩ := List.mem_map.mp hl
              have hlf := Server.redeemLeaves_true _ _ _ _ hrl bs hb
              exact ⟨Server.redeemCoins_mono rest hh true h' heq _ hlf.1, hlf.2⟩
            · have hrec := ih _ _ heq c hcrest l hl
              refine ⟨hrec.1, fun hc' => hrec.2 ?_⟩
              have hm := @Server.redeemLeaves_mono inst
                (GGM.expand env.blake3 c0.key c0.denom) hset 0 l hc'
              rw [hrl] at hm
              exact hm
          · rw [if_neg hv] at heq
            cases heq

theorem Server.redeemRun_get {env : RedeemEnv} :
    ∀ (rs : List RedeemRequest) (hset : List Nat) (k : Nat) (b : Bool)
      (s : List Nat) (r : RedeemRequest),
      (Server.redeemRun env hset rs)[k]? = some (b, s) →
      rs[k]? = some r →
      ∃ spre, (∀ x ∈ hset, x ∈ spre) ∧
        Server.redeem env spre r = some (b, s) := by
  intro rs
  induction rs with
  | nil =>
    intro hset k b s r hres hr
    simp [Server.redeemRun] at hres
  | cons r0 rest ih =>
    intro hset k b s r hres hr
    rcases hr0 : Server.redeem env hset r0 with _ | ⟨b0, h0⟩
    · simp only [Server.redeemRun, hr0] at hres
      simp at hres
    · simp only [Server.redeemRun, hr0] at hres
      cases k with
      | zero =>
        simp at hres hr
        obtain ⟨hb, hs⟩ := hres
        subst hb
        subst hs
        subst hr
        exact ⟨hset, fun x hx => hx, hr0⟩
      | succ k' =>
        simp at hres hr
        obtain ⟨spre, hsub, hred⟩ := ih h0 k' b s r hres hr
        refine ⟨spre, fun x hx => hsub x ?_, hred⟩
        exact Server.redeemCoins_mono r0.coins hset b0 h0 hr0 x hx

theorem Server.redeemRun_get_pair {env : RedeemEnv} :
    ∀ (rs : List RedeemRequest) (hset : List Nat) (i j : Nat) (bi : Bool)
      (si : List Nat) (bj : Bool) (sj : List Nat) (rj : RedeemRequest),
      i < j →
      (Server.redeemRun env hset rs)[i]? = some (bi, si) →
      (Server.redeemRun env hset rs)[j]? = some (bj, sj) →
      rs[j]? = some rj →
      ∃ spre, (∀ x ∈ si, x ∈ spre) ∧
        Server.redeem env spre rj = some (bj, sj) := by
  intro rs
  induction rs with
  | nil =>
    intro hset i j bi si bj sj rj hij hresi hresj hrj
    simp [Server.redeemRun] at hresi
  | cons r0 rest ih =>
    intro hset i j bi si bj sj rj hij hresi hresj hrj
    rcases hr0 : Server.redeem env hset r0 with _ | ⟨b0, h0⟩
    · simp only [Server.redeemRun, hr0] at hresi
      simp at hresi
    · simp only [Server.redeemRun, hr0] at hresi hresj
      obtain ⟨j', rfl⟩ : ∃ j', j = j' + 1 := ⟨j - 1, by omega⟩
      simp at hresj hrj
      cases i with
      | zero =>
        simp at hresi
        obtain ⟨hb, hs⟩ := hresi
        subst hs
        exact Server.redeemRun_get rest h0 j' bj sj rj hresj hrj
      | succ i' =>
        simp at hresi
        exact ih h0 i' j' bi si bj sj rj (by omega) hresi hresj hrj

theorem no_double_spend_ordered (env : RedeemEnv) (hset0 : List Nat)
    (reqs : List RedeemRequest) (i j : Nat) (ri rj : RedeemRequest)
    (si sj : List Nat) (hij : i < j)
    (hri : reqs[i]? = some ri) (hrj : reqs[j]? = some rj)
    (hresi : (Server.redeemRun env hset0 reqs)[i]? = some (true, si))
    (hresj : (Server.redeemRun env hset0 reqs)[j]? = some (true, sj)) :
    ∀ l ∈ requestLeaves env.blake3 ri, l ∉ requestLeaves env.blake3 rj := by
  intro l hli hlj
  obtain ⟨sprej, hsubj, hredj⟩ := Server.redeemRun_get_pair reqs hset0 i j
    true si true sj rj hij hresi hresj hrj
  obtain ⟨sprei, hsubi, hredi⟩ := Server.redeemRun_get reqs hset0 i
    true si ri hresi hri
  obtain ⟨ci, hci, hlci⟩ := List.mem_flatMap.mp hli
  have hin_si : l ∈ si :=
    (Server.redeemCoins_true ri.coins sprei si hredi ci hci l hlci).1
  obtain ⟨cj, hcj, hlcj⟩ := List.mem_flatMap.mp hlj
  have hnot : l ∉ sprej :=
    (Server.redeemCoins_true rj.coins sprej sj hredj cj hcj l hlcj).2
  exact hnot (hsubj l hin_si)

/-! ### Claim C3: no double spend -/

/-- C3: over any sequence of redeem calls on one server, two calls that
both return valid = true have disjoint leaf sets, where the leaf set of a
call is the union over its coins of the field elements of the GGM
expansion of the coin key to depth denom. -/
theorem no_double_spend (env : RedeemEnv) (hset0 : List Nat)
    (reqs : List RedeemRequest) (i j : Nat) (ri rj : RedeemRequest)
    (si sj : List Nat) (hij : i ≠ j)
    (hri : reqs[i]? = some ri) (hrj : reqs[j]? = some rj)
    (hresi : (Server.redeemRun env hset0 reqs)[i]? = some (true, si))
    (hresj : (Server.redeemRun env hset0 reqs)[j]? = some (true, sj)) :
    ∀ l ∈ requestLeaves env.blake3 ri, l ∉ requestLeaves env.blake3 rj := by
  rcases lt_or_gt_of_ne hij with h | h
  · exact no_double_spend_ordered env hset0 reqs i j ri rj si sj h
      hri hrj hresi hresj
  · intro l hli hlj
    exact no_double_spend_ordered env hset0 reqs j i rj ri sj si h
      hrj hri hresj hresi l hlj hli

/-- Witness for C3: a concrete run of two single-coin requests, both
accepted, with disjoint leaf sets. -/
theorem no_double_spend_witness :
    (Server.redeemRun acceptAllEnv []
      [⟨[wCoin 1]⟩, ⟨[wCoin 2]⟩])[0]? = some (true, [1]) ∧
    (Server.redeemRun acceptAllEnv []
      [⟨[wCoin 1]⟩, ⟨[wCoin 2]⟩])[1]? = some (true, [2, 1]) ∧
    (1 : Nat) ∉ requestLeaves acceptAllEnv.blake3 ⟨[wCoin 2]⟩ := by
  refine ⟨by decide, by decide, ?_⟩
  exact no_double_spend acceptAllEnv [] [⟨[wCoin 1]⟩, ⟨[wCoin 2]⟩] 0 1
    ⟨[wCoin 1]⟩ ⟨[wCoin 2]⟩ [1] [2, 1] (by decide) rfl rfl
    (by decide) (by decide) 1 (by decide)

/-! ### Claim C1: the double-spend index is mutated on failed bundles -/

/-- C1 evaluated at the failing input: a single-coin request whose key is
bound to its instance but whose Groth16 proof is invalid.  The call
returns valid = false, yet the double-spend set has grown from empty to
the leaf of the coin: the source inserts leaves before verifying the
proof and never rolls the insertions back. -/
theorem redeem_invalid_proof_mutates_index :
    Server.redeem rejectAllEnv [] ⟨[wCoin 1]⟩ = some (false, [1]) ∧
      ([1] : List Nat) ≠ ([] : List Nat) := by
  exact ⟨by decide, by decide⟩

/-! ### Claim C2: the verifying key consulted by redeem -/

/-- C2 evaluated at the failing input: a denomination-0 coin under a
Groth16 verifier that accepts under verifying-key index 0 and rejects
under index HEIGHT12 = 12.  The claim predicts acceptance through
groth_vks[coin.denom]; the source consults groth_vks[HEIGHT12] for every
coin and therefore rejects the bundle. -/
theorem redeem_consults_vk12_not_denom :
    (wCoin 1).denom = 0 ∧
    vkZeroOnlyEnv.grothVerify (wCoin 1).denom 1 [] = true ∧
    vkZeroOnlyEnv.grothVerify HEIGHT12 1 [] = false ∧
    Server.redeem vkZeroOnlyEnv [] ⟨[wCoin 1]⟩ = some (false, [1]) := by
  exact ⟨by decide, by decide, by decide, by decide⟩

/-! ### Serialization round trip -/

theorem fromLeBytes_toLeBytes (n : Nat) :
    ∀ x : Nat, x < 256 ^ n → fromLeBytes (toLeBytes n x) = x := by
  induction n with
  | zero =>
    intro x hx
    interval_cases x
    rfl
  | succ m ih =>
    intro x hx
    have hx' : x / 256 < 256 ^ m := by
      apply Nat.div_lt_of_lt_mul
      have hpow : (256 : Nat) ^ (m + 1) = 256 * 256 ^ m := by ring
      omega
    have hshift : toLeBytes (m + 1) x = x % 256 :: toLeBytes m (x / 256) := by
      unfold toLeBytes
      rw [List.range_succ_eq_map, List.map_cons, List.map_map]
      simp only [Function.comp, pow_zero, Nat.div_one]
      congr 1
      apply List.map_congr_left
      intro i _
      show x / 256 ^ (i + 1) % 256 = x / 256 / 256 ^ i % 256
      rw [Nat.div_div_eq_div_mul]
      congr 2
      rw [pow_succ]
      ring
    rw [hshift]
    have : fromLeBytes (x % 256 :: toLeBytes m (x / 256)) =
        x % 256 + 256 * fromLeBytes (toLeBytes m (x / 256)) := rfl
    rw [this, ih (x / 256) hx', Nat.mod_add_div]

theorem toLeBytes_length (n x : Nat) : (toLeBytes n x).length = n := by
  simp [toLeBytes]

theorem deserializeFp_toLeBytes (x : Nat) (hx : x < blsScalarOrder) :
    deserializeFp (toLeBytes 32 x) = some x := by
  have h256 : x < 256 ^ 32 := lt_trans hx (by norm_num [blsScalarOrder])
  have hrt := fromLeBytes_toLeBytes 32 x h256
  simp [deserializeFp, toLeBytes_length, hrt, hx]

theorem from_le_bytes_mod_order_toLeBytes (x : Nat) (hx : x < blsScalarOrder) :
    from_le_bytes_mod_order (toLeBytes 32 x) = x := by
  have h256 : x < 256 ^ 32 := lt_trans hx (by norm_num [blsScalarOrder])
  rw [from_le_bytes_mod_order, fromLeBytes_toLeBytes 32 x h256,
    Nat.mod_eq_of_lt hx]

/-! ### Claim C5: the coin built by precompute_proofs -/

/-- C5 amended: the coin pushed by precompute_proofs stores denom = 0 and,
as key, the master key of the wallet entry (not denom = L and the GGM
leaf subkey); redeeming it returns valid = false, with the double-spend
set unchanged, whenever the field element of the master key bytes
differs from leaves[0]. -/
theorem precompute_coin_shape (env : RedeemEnv) (proof_bytes : List Nat)
    (entry : WalletEntry) (hset : List Nat) (pf : List Nat)
    (hl0 : entry.leaves.getD 0 0 < blsScalarOrder)
    (hdp : env.deserProof proof_bytes = some pf)
    (hne : from_le_bytes_mod_order entry.key ≠ entry.leaves.getD 0 0) :
    (Client.precompute_coin proof_bytes entry).denom = 0 ∧
    (Client.precompute_coin proof_bytes entry).key = entry.key ∧
    Server.redeem env hset ⟨[Client.precompute_coin proof_bytes entry]⟩ =
      some (false, hset) := by
  refine ⟨rfl, rfl, ?_⟩
  have hleaf : Server.redeemLeaves (entry.leaves.getD 0 0) hset 0
      (GGM.expand env.blake3 entry.key 0) = (false, hset) := by
    simp only [GGM.expand, Server.redeemLeaves]
    rw [if_pos ⟨trivial, hne⟩]
  simp only [Server.redeem, Server.redeemCoins, Client.precompute_coin,
    deserializeFp_toLeBytes _ hl0, hdp, hleaf]

/-- A small concrete wallet entry used by the C5 witness. -/
def wEntry : WalletEntry :=
  ⟨toLeBytes 32 1, [5]⟩

/-- Witness for the amended C5 at a concrete wallet entry. -/
theorem precompute_coin_shape_witness :
    (Client.precompute_coin [] wEntry).denom = 0 ∧
    (Client.precompute_coin [] wEntry).key = wEntry.key ∧
    Server.redeem acceptAllEnv [] ⟨[Client.precompute_coin [] wEntry]⟩ =
      some (false, []) := by
  exact precompute_coin_shape acceptAllEnv [] wEntry [] [] (by decide) rfl
    (by decide)

/-- The height-12 wallet of the concrete test key, as built by
issue_request. -/
def wallet12 : WalletEntry :=
  Client.issueWallet testHash (toLeBytes 32 1) 12

/-- Counterexample to C5 as stated: the leaf-level coin built by
precompute_proofs for a height-12 wallet carries denom = 0, not
denom = L = 12. -/
theorem precompute_coin_not_denom12 :
    (Client.precompute_coin [] wallet12).denom ≠ 12 := by
  decide

/-- Witness for C8 over the concrete group ZMod 7 with generator 3,
secret key 2, message 9 and nonce 5. -/
theorem schnorr_sign_verify_witness :
    Schnorr.verify wSchnorrEnv (3 : ZMod 7)
      (Schnorr.keygen (3 : ZMod 7) (2 : ZMod 7)).1 9
      (Schnorr.sign wSchnorrEnv (3 : ZMod 7) (2 : ZMod 7) 9 (5 : ZMod 7)) =
      true :=
  schnorr_sign_verify wSchnorrEnv (3 : ZMod 7) (2 : ZMod 7) (5 : ZMod 7) 9

/-- Witness for C9: the same request issued twice in one call sequence
produces the same response. -/
theorem issue_deterministic_witness :
    (Server.issueCalls wSchnorrEnv (3 : ZMod 7) (2 : ZMod 7) wScalarBytes
      (5 : ZMod 7) [wIssueReq, wIssueReq]).get? 0 =
    (Server.issueCalls wSchnorrEnv (3 : ZMod 7) (2 : ZMod 7) wScalarBytes
      (5 : ZMod 7) [wIssueReq, wIssueReq]).get? 1 :=
  issue_deterministic wSchnorrEnv (3 : ZMod 7) (2 : ZMod 7) wScalarBytes
    (5 : ZMod 7) [wIssueReq, wIssueReq] 0 1 wIssueReq rfl rfl

/-! ### Sorted-set lemmas -/

theorem insertSorted_append_big {x : Nat} :
    ∀ {s : List Nat}, (∀ y ∈ s, y < x) → insertSorted x s = s ++ [x] := by
  intro s
  induction s with
  | nil => intro _; rfl
  | cons y ys ih =>
    intro hlt
    have hy : y < x := hlt y (List.mem_cons_self _ _)
    simp only [insertSorted]
    rw [if_neg (by omega), if_neg (by omega)]
    rw [ih (fun z hz => hlt z (List.mem_cons_of_mem _ hz))]
    rfl

theorem insertSorted_dup_append {x : Nat} :
    ∀ {s : List Nat}, (∀ y ∈ s, y < x) →
      insertSorted x (s ++ [x]) = s ++ [x] := by
  intro s
  induction s with
  | nil =>
    intro _
    simp [insertSorted]
  | cons y ys ih =>
    intro hlt
    have hy : y < x := hlt y (List.mem_cons_self _ _)
    simp only [List.cons_append, insertSorted]
    rw [if_neg (by omega), if_neg (by omega)]
    rw [show (ys.append [x]) = ys ++ [x] from rfl]
    rw [ih (fun z hz => hlt z (List.mem_cons_of_mem _ hz))]

theorem insertSorted_range' (x k : Nat) :
    insertSorted x (List.range' (x + 1) k) = List.range' x (k + 1) := by
  cases k with
  | zero => rfl
  | succ n =>
    rw [List.range'_succ, insertSorted]
    rw [if_pos (by omega)]
    rw [List.range'_succ, List.range'_succ]

theorem insertSorted_head_dup (x : Nat) (ys : List Nat) :
    insertSorted x (x :: ys) = x :: ys := by
  simp [insertSorted]

/-! ### Phase one of insert_batch -/

theorem SMT.insertLeaves_cons (height : Nat) (t : SMTree) (s : List Nat)
    (i : Nat) (leaf : Nat) (rest : List (Nat × Nat)) (p : Nat)
    (hp : parentIdx (2 ^ height - 1 + i) = some p) :
    SMT.insertLeaves height (t, s) ((i, leaf) :: rest) =
      SMT.insertLeaves height
        (SMTree.update t (2 ^ height - 1 + i) leaf, insertSorted p s) rest := by
  simp only [SMT.insertLeaves, hp]

theorem SMT.insertLeaves_go (height : Nat) (hh : 1 ≤ height) :
    ∀ (m : Nat) (j : Nat) (vals : List Nat) (t : SMTree) (s : List Nat),
      vals.length = 2 * m → j % 2 = 0 →
      (∀ y ∈ s, y < (2 ^ height - 1 + j - 1) / 2) →
      ∃ t', SMT.insertLeaves height (t, s) (List.enumFrom j vals) =
          some (t', s ++ List.range' ((2 ^ height - 1 + j - 1) / 2) m) ∧
        ∀ x, t' x =
          if 2 ^ height - 1 + j ≤ x ∧ x < 2 ^ height - 1 + j + 2 * m
          then some (vals.getD (x - (2 ^ height - 1 + j)) 0) else t x := by
  have hb : 1 ≤ 2 ^ height - 1 := by
    have := Nat.one_lt_two_pow_iff.mpr (by omega : height ≠ 0)
    omega
  have hbodd : (2 ^ height - 1) % 2 = 1 := by
    have h2 : 2 ^ height = 2 * 2 ^ (height - 1) := by
      conv_lhs => rw [show height = (height - 1) + 1 by omega]
      rw [pow_succ]
      ring
    omega
  intro m
  induction m with
  | zero =>
    intro j vals t s hlen hj hs
    have hnil : vals = [] := List.eq_nil_of_length_eq_zero (by omega)
    subst hnil
    refine ⟨t, by simp [SMT.insertLeaves, List.enumFrom], fun x => ?_⟩
    rw [if_neg (by omega)]
  | succ m ih =>
    intro j vals t s hlen hj hs
    obtain ⟨v0, vals1, rfl⟩ : ∃ v0 vals1, vals = v0 :: vals1 := by
      cases vals with
      | nil => simp at hlen
      | cons a l => exact ⟨a, l, rfl⟩
    obtain ⟨v1, vs, rfl⟩ : ∃ v1 vs, vals1 = v1 :: vs := by
      cases vals1 with
      | nil => simp at hlen; omega
      | cons a l => exact ⟨a, l, rfl⟩
    have hvs : vs.length = 2 * m := by simp at hlen; omega
    set b := 2 ^ height - 1 with hbdef
    have hq : (b + j - 1) / 2 * 2 + 1 = b + j := by omega
    set q := (b + j - 1) / 2 with hqdef
    -- first leaf
    have hp1 : parentIdx (b + j) = some q := by
      unfold parentIdx
      rw [if_pos (by omega)]
    have hp2 : parentIdx (b + j + 1) = some q := by
      unfold parentIdx
      rw [if_pos (by omega)]
      congr 1
      omega
    have hstep : SMT.insertLeaves height (t, s)
        (List.enumFrom j (v0 :: v1 :: vs)) =
        SMT.insertLeaves height
          (SMTree.update (SMTree.update t (b + j) v0) (b + j + 1) v1,
            s ++ [q]) (List.enumFrom (j + 2) vs) := by
      show SMT.insertLeaves height (t, s)
          ((j, v0) :: (j + 1, v1) :: List.enumFrom (j + 2) vs) = _
      rw [SMT.insertLeaves_cons height t s j v0 _ q hp1]
      rw [insertSorted_append_big hs]
      have hp2' : parentIdx (2 ^ height - 1 + (j + 1)) = some q := by
        rw [show 2 ^ height - 1 + (j + 1) = b + j + 1 by omega]
        exact hp2
      rw [SMT.insertLeaves_cons height _ _ (j + 1) v1 _ q hp2']
      rw [insertSorted_dup_append hs]
      rw [show 2 ^ height - 1 + (j + 1) = b + j + 1 by omega]
    rw [hstep]
    have hs2 : ∀ y ∈ s ++ [q], y < (b + (j + 2) - 1) / 2 := by
      intro y hy
      rcases List.mem_append.mp hy with hy | hy
      · have := hs y hy
        omega
      · simp at hy
        omega
    obtain ⟨t', heq, hchar⟩ := ih (j + 2) vs
      (SMTree.update (SMTree.update t (b + j) v0) (b + j + 1) v1)
      (s ++ [q]) hvs (by omega) hs2
    refine ⟨t', ?_, ?_⟩
    · rw [heq]
      have hq2 : (b + (j + 2) - 1) / 2 = q + 1 := by omega
      rw [hq2, show s ++ [q] ++ List.range' (q + 1) m =
        s ++ (q :: List.range' (q + 1) m) by simp]
      rw [← List.range'_succ]
    · intro x
      rw [hchar x]
      by_cases hx1 : b + (j + 2) ≤ x ∧ x < b + (j + 2) + 2 * m
      · rw [if_pos hx1, if_pos (by omega)]
        have : x - (b + j) = (x - (b + (j + 2))) + 2 := by omega
        rw [this]
        rfl
      · rw [if_neg hx1]
        unfold SMTree.update
        by_cases hx2 : x = b + j + 1
        · rw [if_pos hx2, if_pos (by omega)]
          subst hx2
          have : b + j + 1 - (b + j) = 1 := by omega
          rw [this]
          rfl
        · rw [if_neg hx2]
          by_cases hx3 : x = b + j
          · rw [if_pos hx3, if_pos (by omega)]
            subst hx3
            simp
          · rw [if_neg hx3, if_neg (by omega)]

/-! ### One level of insert_batch -/

theorem SMT.levelStep_cons (hash : Nat → Nat → Nat) (t : SMTree)
    (i : Nat) (rest : List Nat) (l r : Nat) (p : Nat)
    (hl : t (left_child i) = some l) (hr : t (right_child i) = some r)
    (hp : parentIdx i = some p) :
    SMT.levelStep hash t (i :: rest) =
      match SMT.levelStep hash (SMTree.update t i (hash l r)) rest with
      | none => none
      | some (t'', s) => some (t'', insertSorted p s) := by
  simp only [SMT.levelStep, hl, hr, hp]

theorem SMT.levelStep_root (hash : Nat → Nat → Nat) (t : SMTree)
    (g1 g2 : Nat) (h1 : t 1 = some g1) (h2 : t 2 = some g2) :
    SMT.levelStep hash t [0] =
      some (SMTree.update t 0 (hash g1 g2), []) := by
  simp only [SMT.levelStep, left_child, right_child]
  norm_num [h1, h2, parentIdx]

theorem SMT.levelStep_go (hash : Nat → Nat → Nat) (g : Nat → Nat) :
    ∀ (m : Nat) (a : Nat) (t : SMTree),
      a % 2 = 1 → 2 * m ≤ a + 1 →
      (∀ x, a ≤ x → x < a + 2 * m →
        t (2 * x + 1) = some (g (2 * x + 1)) ∧
        t (2 * x + 2) = some (g (2 * x + 2))) →
      ∃ t', SMT.levelStep hash t (List.range' a (2 * m)) =
          some (t', List.range' ((a - 1) / 2) m) ∧
        ∀ x, t' x = if a ≤ x ∧ x < a + 2 * m
          then some (hash (g (2 * x + 1)) (g (2 * x + 2))) else t x := by
  intro m
  induction m with
  | zero =>
    intro a t ha hm hc
    refine ⟨t, by simp [SMT.levelStep], fun x => ?_⟩
    rw [if_neg (by omega)]
  | succ m ih =>
    intro a t ha hm hc
    set q := (a - 1) / 2 with hqdef
    have haq : a = 2 * q + 1 := by omega
    have hlist : List.range' a (2 * (m + 1)) =
        a :: (a + 1) :: List.range' (a + 2) (2 * m) := by
      rw [show 2 * (m + 1) = (2 * m + 1) + 1 by omega, List.range'_succ]
      rw [List.range'_succ]
    have hca := hc a (by omega) (by omega)
    have hca1 := hc (a + 1) (by omega) (by omega)
    set t1 := SMTree.update t a (hash (g (2 * a + 1)) (g (2 * a + 2)))
      with ht1def
    set t2 := SMTree.update t1 (a + 1)
      (hash (g (2 * (a + 1) + 1)) (g (2 * (a + 1) + 2))) with ht2def
    have ht1 : ∀ x, x ≠ a → t1 x = t x := by
      intro x hx
      rw [ht1def]
      unfold SMTree.update
      rw [if_neg hx]
    have ht2 : ∀ x, x ≠ a → x ≠ a + 1 → t2 x = t x := by
      intro x hx hx1
      rw [ht2def]
      unfold SMTree.update
      rw [if_neg hx1]
      exact ht1 x hx
    obtain ⟨t3, heq3, hchar3⟩ := ih (a + 2) t2 (by omega) (by omega)
      (by
        intro x hx hx2
        have hcx := hc x (by omega) (by omega)
        constructor
        · rw [ht2 (2 * x + 1) (by omega) (by omega)]
          exact hcx.1
        · rw [ht2 (2 * x + 2) (by omega) (by omega)]
          exact hcx.2)
    have hp_a : parentIdx a = some q := by
      unfold parentIdx
      rw [if_pos (by omega)]
    have hp_a1 : parentIdx (a + 1) = some q := by
      unfold parentIdx
      rw [if_pos (by omega)]
      congr 1
      omega
    have hq2 : (a + 2 - 1) / 2 = q + 1 := by omega
    refine ⟨t3, ?_, ?_⟩
    · rw [hlist]
      rw [SMT.levelStep_cons hash t a _ _ _ q hca.1 hca.2 hp_a]
      rw [SMT.levelStep_cons hash t1 (a + 1) _ _ _ q
        (by rw [left_child, ht1 (2 * (a + 1) + 1) (by omega)]; exact hca1.1)
        (by rw [right_child, ht1 (2 * (a + 1) + 2) (by omega)]; exact hca1.2)
        hp_a1]
      rw [show SMTree.update t1 (a + 1)
        (hash (g (2 * (a + 1) + 1)) (g (2 * (a + 1) + 2))) = t2 from rfl]
      rw [heq3, hq2]
      show some (t3, insertSorted q (insertSorted q (List.range' (q + 1) m))) =
        some (t3, List.range' q (m + 1))
      rw [insertSorted_range' q m]
      rw [show List.range' q (m + 1) = q :: List.range' (q + 1) m from
        List.range'_succ q m 1]
      rw [insertSorted_head_dup]
    · intro x
      rw [hchar3 x]
      by_cases hx1 : a + 2 ≤ x ∧ x < a + 2 + 2 * m
      · rw [if_pos hx1, if_pos (by omega)]
      · rw [if_neg hx1]
        by_cases hx2 : x = a
        · subst hx2
          rw [if_pos (by omega)]
          rw [ht2def]
          unfold SMTree.update
          rw [if_neg (by omega)]
          rw [ht1def]
          unfold SMTree.update
          rw [if_pos rfl]
        · by_cases hx3 : x = a + 1
          · subst hx3
            rw [if_pos (by omega)]
            rw [ht2def]
            unfold SMTree.update
            rw [if_pos rfl]
          · rw [if_neg (by omega)]
            exact ht2 x hx2 hx3

/-! ### The level loop computes every node value -/

theorem SMT.levels_spec (hash : Nat → Nat → Nat) (N : Nat)
    (leaves : List Nat) :
    ∀ (d : Nat) (t : SMTree), d < N →
      (∀ x, 2 ^ (d + 1) - 1 ≤ x → x < 2 ^ (N + 1) - 1 →
        t x = some (SMT.nodeVal hash N leaves x)) →
      ∃ tf, SMT.levels hash (d + 1) t (List.range' (2 ^ d - 1) (2 ^ d)) =
          some tf ∧
        ∀ x, x < 2 ^ (N + 1) - 1 →
          tf x = some (SMT.nodeVal hash N leaves x) := by
  intro d
  induction d with
  | zero =>
    intro t hd hup
    have hN1 : 1 ≤ N := hd
    have hb : 3 ≤ 2 ^ (N + 1) - 1 := by
      have : 2 ^ 2 ≤ 2 ^ (N + 1) := Nat.pow_le_pow_right (by omega) (by omega)
      omega
    have h1 := hup 1 (by norm_num) (by omega)
    have h2 := hup 2 (by norm_num) (by omega)
    have hroot := SMT.levelStep_root hash t _ _ h1 h2
    refine ⟨SMTree.update t 0
      (hash (SMT.nodeVal hash N leaves 1) (SMT.nodeVal hash N leaves 2)),
      ?_, ?_⟩
    · show SMT.levels hash 1 t (List.range' 0 1) = _
      rw [show List.range' 0 1 = [0] from rfl]
      rw [SMT.levels, hroot]
      rfl
    · intro x hx
      have h2N : 2 ≤ 2 ^ N := by
        have := Nat.pow_le_pow_right (by omega : 1 ≤ 2) hN1
        omega
      unfold SMTree.update
      by_cases hx0 : x = 0
      · subst hx0
        rw [if_pos rfl]
        have h0 : SMT.nodeVal hash N leaves 0 =
            hash (SMT.nodeVal hash N leaves 1) (SMT.nodeVal hash N leaves 2) := by
          conv_lhs => rw [SMT.nodeVal]
          rw [if_neg (by omega)]
        rw [h0]
      · rw [if_neg hx0]
        exact hup x (by omega) hx
  | succ d ih =>
    intro t hd hup
    have hdN : d + 2 ≤ N := hd
    have hpow : 2 ^ (d + 2) = 2 * 2 ^ (d + 1) := by rw [pow_succ]; ring
    have hpow1 : 2 ^ (d + 1) = 2 * 2 ^ d := by rw [pow_succ]; ring
    have hpowN : 2 ^ (d + 3) ≤ 2 ^ (N + 1) :=
      Nat.pow_le_pow_right (by omega) (by omega)
    have hpow3 : 2 ^ (d + 3) = 2 * 2 ^ (d + 2) := by rw [pow_succ]; ring
    have hpowN2 : 2 ^ (d + 2) ≤ 2 ^ N :=
      Nat.pow_le_pow_right (by omega) (by omega)
    have hb1 : 1 ≤ 2 ^ d := Nat.one_le_two_pow
    obtain ⟨t', heq', hchar'⟩ := SMT.levelStep_go hash
      (SMT.nodeVal hash N leaves) (2 ^ d) (2 ^ (d + 1) - 1) t
      (by rw [hpow1]; omega) (by rw [hpow1]; omega)
      (by
        intro x hx hx2
        constructor
        · exact hup (2 * x + 1) (by omega) (by omega)
        · exact hup (2 * x + 2) (by omega) (by omega))
    have hq : (2 ^ (d + 1) - 1 - 1) / 2 = 2 ^ d - 1 := by rw [hpow1]; omega
    obtain ⟨tf, heqf, hcharf⟩ := ih t' (by omega)
      (by
        intro x hx hxb
        rw [hchar' x]
        by_cases hxin : 2 ^ (d + 1) - 1 ≤ x ∧ x < 2 ^ (d + 1) - 1 + 2 * 2 ^ d
        · rw [if_pos hxin]
          congr 1
          conv_rhs => rw [SMT.nodeVal]
          rw [if_neg (by omega)]
        · rw [if_neg hxin]
          exact hup x (by omega) hxb)
    refine ⟨tf, ?_, hcharf⟩
    show SMT.levels hash (d + 1 + 1) t
      (List.range' (2 ^ (d + 1) - 1) (2 ^ (d + 1))) = some tf
    rw [SMT.levels]
    rw [show (2 : Nat) ^ (d + 1) = 2 * 2 ^ d from by omega] at heq' ⊢
    have hq' : (2 * 2 ^ d - 1 - 1) / 2 = 2 ^ d - 1 := by omega
    rw [heq', hq']
    exact heqf

/-! ### new_sequential computes every node value -/

theorem SMT.new_sequential_spec (hash : Nat → Nat → Nat) (N : Nat)
    (leaves : List Nat) (hN : 1 ≤ N) (hlen : leaves.length = 2 ^ N) :
    ∃ t, SMT.new_sequential hash N leaves = some t ∧
      ∀ x, x < 2 ^ (N + 1) - 1 →
        t x = some (SMT.nodeVal hash N leaves x) := by
  obtain ⟨e, rfl⟩ : ∃ e, N = e + 1 := ⟨N - 1, by omega⟩
  have hpow : 2 ^ (e + 1) = 2 * 2 ^ e := by rw [pow_succ]; ring
  have hb1 : 1 ≤ 2 ^ e := Nat.one_le_two_pow
  obtain ⟨t1, heq1, hchar1⟩ := SMT.insertLeaves_go (e + 1) (by omega)
    (2 ^ e) 0 leaves SMTree.empty [] (by omega) (by norm_num)
    (by simp)
  have hq0 : (2 ^ (e + 1) - 1 + 0 - 1) / 2 = 2 ^ e - 1 := by omega
  have hup1 : ∀ x, 2 ^ (e + 1) - 1 ≤ x → x < 2 ^ (e + 1 + 1) - 1 →
      t1 x = some (SMT.nodeVal hash (e + 1) leaves x) := by
    intro x hx hxb
    rw [hchar1 x]
    have hpow2 : 2 ^ (e + 1 + 1) = 2 * 2 ^ (e + 1) := by rw [pow_succ]; ring
    rw [if_pos (by omega)]
    congr 1
    rw [SMT.nodeVal]
    rw [if_pos (by omega)]
    norm_num
  obtain ⟨tf, heqf, hcharf⟩ := SMT.levels_spec hash (e + 1) leaves e t1
    (by omega) hup1
  refine ⟨tf, ?_, hcharf⟩
  unfold SMT.new_sequential SMT.insert_batch
  rw [show leaves.enum = List.enumFrom 0 leaves from rfl]
  rw [heq1]
  rw [hq0] at heq1 ⊢
  simp only [List.nil_append]
  exact heqf

/-! ### The generated path verifies -/

theorem SMT.genPath_zero (t : SMTree) : SMT.genPath t 0 = some [] := by
  rw [SMT.genPath]
  simp

theorem SMT.genPath_cons (t : SMTree) (cur : Nat) (h0 : cur ≠ 0)
    (sib : Nat) (hsib : siblingIdx cur = some sib) (c s : Nat)
    (hc : t cur = some c) (hs : t sib = some s) (rest : List (Nat × Nat))
    (hrest : SMT.genPath t ((cur - 1) / 2) = some rest) :
    SMT.genPath t cur =
      some ((if is_left_child cur then (c, s) else (s, c)) :: rest) := by
  rw [SMT.genPath]
  rw [dif_neg h0]
  simp only [hsib, hc, hs, hrest]

theorem SMT.genPath_chain (hash : Nat → Nat → Nat) (N : Nat)
    (leaves : List Nat) (t : SMTree) (hN : 1 ≤ N)
    (ht : ∀ x, x < 2 ^ (N + 1) - 1 →
      t x = some (SMT.nodeVal hash N leaves x)) :
    ∀ p, 0 < p → p < 2 ^ (N + 1) - 1 →
    ∃ rest, SMT.genPath t p =
        some ((SMT.nodeVal hash N leaves (2 * ((p - 1) / 2) + 1),
               SMT.nodeVal hash N leaves (2 * ((p - 1) / 2) + 2)) :: rest) ∧
      ∀ v, (v = SMT.nodeVal hash N leaves (2 * ((p - 1) / 2) + 1) ∨
            v = SMT.nodeVal hash N leaves (2 * ((p - 1) / 2) + 2)) →
        List.foldlM (Path.calcStep hash) v
          ((SMT.nodeVal hash N leaves (2 * ((p - 1) / 2) + 1),
            SMT.nodeVal hash N leaves (2 * ((p - 1) / 2) + 2)) :: rest) =
          some (SMT.nodeVal hash N leaves 0) := by
  have h2 : 2 ^ (N + 1) = 2 * 2 ^ N := by rw [pow_succ]; ring
  have h2N : 2 ≤ 2 ^ N := by
    have := Nat.pow_le_pow_right (by omega : 1 ≤ 2) hN
    omega
  intro p
  induction p using Nat.strong_induction_on with
  | _ p IH =>
    intro hp0 hpb
    have hqlt : (p - 1) / 2 < 2 ^ N - 1 := by omega
    have hstep : ∀ v rest,
        (v = SMT.nodeVal hash N leaves (2 * ((p - 1) / 2) + 1) ∨
         v = SMT.nodeVal hash N leaves (2 * ((p - 1) / 2) + 2)) →
        List.foldlM (Path.calcStep hash) v
          ((SMT.nodeVal hash N leaves (2 * ((p - 1) / 2) + 1),
            SMT.nodeVal hash N leaves (2 * ((p - 1) / 2) + 2)) :: rest) =
        List.foldlM (Path.calcStep hash)
          (SMT.nodeVal hash N leaves ((p - 1) / 2)) rest := by
      intro v rest hv
      rw [List.foldlM_cons]
      rw [Path.calcStep]
      rw [if_neg (by tauto)]
      have hint : SMT.nodeVal hash N leaves ((p - 1) / 2) =
          hash (SMT.nodeVal hash N leaves (2 * ((p - 1) / 2) + 1))
            (SMT.nodeVal hash N leaves (2 * ((p - 1) / 2) + 2)) := by
        conv_lhs => rw [SMT.nodeVal]
        rw [if_neg (by omega)]
      rw [← hint]
      rfl
    by_cases hodd : p % 2 = 1
    · -- left child: sibling is p + 1
      have hsib : siblingIdx p = some (p + 1) := by
        unfold siblingIdx
        rw [if_neg (by omega)]
        rw [if_pos (by simp [is_left_child, hodd])]
      have hsb : p + 1 < 2 ^ (N + 1) - 1 := by omega
      have hpair : (if is_left_child p
          then (SMT.nodeVal hash N leaves p, SMT.nodeVal hash N leaves (p + 1))
          else (SMT.nodeVal hash N leaves (p + 1), SMT.nodeVal hash N leaves p)) =
          (SMT.nodeVal hash N leaves (2 * ((p - 1) / 2) + 1),
           SMT.nodeVal hash N leaves (2 * ((p - 1) / 2) + 2)) := by
        rw [if_pos (by simp [is_left_child, hodd])]
        have e1 : 2 * ((p - 1) / 2) + 1 = p := by omega
        have e2 : 2 * ((p - 1) / 2) + 2 = p + 1 := by omega
        rw [e1, e2]
      by_cases hq0 : (p - 1) / 2 = 0
      · refine ⟨[], ?_, ?_⟩
        · rw [SMT.genPath_cons t p (by omega) (p + 1) hsib _ _
            (ht p hpb) (ht (p + 1) hsb) [] (by rw [hq0]; exact SMT.genPath_zero t)]
          rw [hpair]
        · intro v hv
          rw [hstep v [] hv]
          rw [List.foldlM_nil, hq0]
          rfl
      · obtain ⟨rest', heq', hfold'⟩ := IH ((p - 1) / 2) (by omega)
          (by omega) (by omega)
        refine ⟨(SMT.nodeVal hash N leaves (2 * (((p - 1) / 2 - 1) / 2) + 1),
          SMT.nodeVal hash N leaves (2 * (((p - 1) / 2 - 1) / 2) + 2)) ::
          rest', ?_, ?_⟩
        · rw [SMT.genPath_cons t p (by omega) (p + 1) hsib _ _
            (ht p hpb) (ht (p + 1) hsb) _ heq']
          rw [hpair]
        · intro v hv
          rw [hstep v _ hv]
          apply hfold'
          by_cases hqodd : (p - 1) / 2 % 2 = 1
          · left
            congr 1
            omega
          · right
            congr 1
            omega
    · -- right child: sibling is p - 1
      have hsib : siblingIdx p = some (p - 1) := by
        unfold siblingIdx
        rw [if_neg (by omega)]
        rw [if_neg (by simp [is_left_child]; omega)]
      have hsb : p - 1 < 2 ^ (N + 1) - 1 := by omega
      have hpair : (if is_left_child p
          then (SMT.nodeVal hash N leaves p, SMT.nodeVal hash N leaves (p - 1))
          else (SMT.nodeVal hash N leaves (p - 1), SMT.nodeVal hash N leaves p)) =
          (SMT.nodeVal hash N leaves (2 * ((p - 1) / 2) + 1),
           SMT.nodeVal hash N leaves (2 * ((p - 1) / 2) + 2)) := by
        rw [if_neg (by simp [is_left_child]; omega)]
        have e1 : 2 * ((p - 1) / 2) + 1 = p - 1 := by omega
        have e2 : 2 * ((p - 1) / 2) + 2 = p := by omega
        rw [e1, e2]
      by_cases hq0 : (p - 1) / 2 = 0
      · refine ⟨[], ?_, ?_⟩
        · rw [SMT.genPath_cons t p (by omega) (p - 1) hsib _ _
            (ht p hpb) (ht (p - 1) hsb) [] (by rw [hq0]; exact SMT.genPath_zero t)]
          rw [hpair]
        · intro v hv
          rw [hstep v [] hv]
          rw [List.foldlM_nil, hq0]
          rfl
      · obtain ⟨rest', heq', hfold'⟩ := IH ((p - 1) / 2) (by omega)
          (by omega) (by omega)
        refine ⟨(SMT.nodeVal hash N leaves (2 * (((p - 1) / 2 - 1) / 2) + 1),
          SMT.nodeVal hash N leaves (2 * (((p - 1) / 2 - 1) / 2) + 2)) ::
          rest', ?_, ?_⟩
        · rw [SMT.genPath_cons t p (by omega) (p - 1) hsib _ _
            (ht p hpb) (ht (p - 1) hsb) _ heq']
          rw [hpair]
        · intro v hv
          rw [hstep v _ hv]
          apply hfold'
          by_cases hqodd : (p - 1) / 2 % 2 = 1
          · left
            congr 1
            omega
          · right
            congr 1
            omega

/-! ### Claim C4: Merkle membership -/

/-- The combined behaviour of check_membership on a generated proof:
the proved leaf and its sibling verify, anything else errors. -/
theorem SMT.buildAndCheck_spec (hash : Nat → Nat → Nat) (N : Nat)
    (leaves : List Nat) (i : Nat) (hN : 1 ≤ N)
    (hlen : leaves.length = 2 ^ N) (hi : i < 2 ^ N) :
    SMT.buildAndCheck hash N leaves i (leaves.getD i 0) = some true ∧
    SMT.buildAndCheck hash N leaves i
      (leaves.getD (sibLeafIndex i) 0) = some true ∧
    ∀ x, x ≠ leaves.getD i 0 → x ≠ leaves.getD (sibLeafIndex i) 0 →
      SMT.buildAndCheck hash N leaves i x = none := by
  have h2 : 2 ^ (N + 1) = 2 * 2 ^ N := by rw [pow_succ]; ring
  have h2N : 2 ≤ 2 ^ N := by
    have := Nat.pow_le_pow_right (by omega : 1 ≤ 2) hN
    omega
  have hNeven : 2 ^ N % 2 = 0 := by
    obtain ⟨e, rfl⟩ : ∃ e, N = e + 1 := ⟨N - 1, by omega⟩
    rw [pow_succ]
    omega
  obtain ⟨t, hts, htc⟩ := SMT.new_sequential_spec hash N leaves hN hlen
  set p := i + 2 ^ N - 1 with hpdef
  have hp0 : 0 < p := by omega
  have hpb : p < 2 ^ (N + 1) - 1 := by omega
  obtain ⟨rest, hgen, hfold⟩ :=
    SMT.genPath_chain hash N leaves t hN htc p hp0 hpb
  set q := (p - 1) / 2 with hqdef
  have hleafval : ∀ k, 2 ^ N - 1 ≤ k →
      SMT.nodeVal hash N leaves k = leaves.getD (k - (2 ^ N - 1)) 0 := by
    intro k hk
    rw [SMT.nodeVal]
    rw [if_pos hk]
  have hAB : (SMT.nodeVal hash N leaves (2 * q + 1) = leaves.getD i 0 ∧
        SMT.nodeVal hash N leaves (2 * q + 2) =
          leaves.getD (sibLeafIndex i) 0) ∨
      (SMT.nodeVal hash N leaves (2 * q + 1) =
          leaves.getD (sibLeafIndex i) 0 ∧
        SMT.nodeVal hash N leaves (2 * q + 2) = leaves.getD i 0) := by
    by_cases hpar : i % 2 = 0
    · left
      constructor
      · rw [show 2 * q + 1 = p by omega]
        rw [hleafval p (by omega)]
        congr 1
        omega
      · rw [show 2 * q + 2 = p + 1 by omega]
        rw [hleafval (p + 1) (by omega)]
        rw [sibLeafIndex, if_pos hpar]
        congr 1
        omega
    · right
      constructor
      · rw [show 2 * q + 1 = p - 1 by omega]
        rw [hleafval (p - 1) (by omega)]
        rw [sibLeafIndex, if_neg hpar]
        congr 1
        omega
      · rw [show 2 * q + 2 = p by omega]
        rw [hleafval p (by omega)]
        congr 1
        omega
  have hbc : ∀ x, SMT.buildAndCheck hash N leaves i x =
      Path.check_membership hash
        ((SMT.nodeVal hash N leaves (2 * q + 1),
          SMT.nodeVal hash N leaves (2 * q + 2)) :: rest)
        (SMT.nodeVal hash N leaves 0) x := by
    intro x
    have hroot : SMT.root t = some (SMT.nodeVal hash N leaves 0) :=
      htc 0 (by omega)
    have hgen' : SMT.generate_membership_proof t N i =
        some ((SMT.nodeVal hash N leaves (2 * q + 1),
          SMT.nodeVal hash N leaves (2 * q + 2)) :: rest) := by
      show SMT.genPath t (convert_index_to_last_level i N) = _
      rw [show convert_index_to_last_level i N = p from rfl]
      exact hgen
    simp only [SMT.buildAndCheck, hts, hroot, hgen']
  have hcm : ∀ x,
      Path.check_membership hash
        ((SMT.nodeVal hash N leaves (2 * q + 1),
          SMT.nodeVal hash N leaves (2 * q + 2)) :: rest)
        (SMT.nodeVal hash N leaves 0) x =
      if x ≠ SMT.nodeVal hash N leaves (2 * q + 1) ∧
          x ≠ SMT.nodeVal hash N leaves (2 * q + 2)
        then none else some true := by
    intro x
    by_cases hx : x ≠ SMT.nodeVal hash N leaves (2 * q + 1) ∧
        x ≠ SMT.nodeVal hash N leaves (2 * q + 2)
    · have hcr : Path.calculate_root hash
          ((SMT.nodeVal hash N leaves (2 * q + 1),
            SMT.nodeVal hash N leaves (2 * q + 2)) :: rest) x = none := by
        simp only [Path.calculate_root]
        rw [if_pos hx]
      simp only [Path.check_membership, hcr, if_pos hx]
    · have hcr : Path.calculate_root hash
          ((SMT.nodeVal hash N leaves (2 * q + 1),
            SMT.nodeVal hash N leaves (2 * q + 2)) :: rest) x =
          some (SMT.nodeVal hash N leaves 0) := by
        simp only [Path.calculate_root]
        rw [if_neg hx]
        exact hfold x (by tauto)
      simp only [Path.check_membership, hcr, if_neg hx]
      simp
  refine ⟨?_, ?_, ?_⟩
  · rw [hbc, hcm]
    rcases hAB with ⟨h1, h2'⟩ | ⟨h1, h2'⟩ <;> rw [if_neg (by tauto)]
  · rw [hbc, hcm]
    rcases hAB with ⟨h1, h2'⟩ | ⟨h1, h2'⟩ <;> rw [if_neg (by tauto)]
  · intro x hx1 hx2
    rw [hbc, hcm]
    rcases hAB with ⟨h1, h2'⟩ | ⟨h1, h2'⟩ <;> rw [if_pos (by rw [h1, h2']; tauto)]

/-- C4 amended: for a batch of 2^N leaves (N at least 1) and i below 2^N,
check_membership accepts leaves[i] against the generated proof for i; it
equally accepts the sibling leaf leaves[sibLeafIndex i], even when that
value differs from leaves[i]; and for any value different from both
entries of the first pair of the path it returns an InvalidLeaf error
(none), never Ok(false). -/
theorem merkle_membership (hash : Nat → Nat → Nat) (N : Nat)
    (leaves : List Nat) (i : Nat) (hN : 1 ≤ N)
    (hlen : leaves.length = 2 ^ N) (hi : i < 2 ^ N) :
    SMT.buildAndCheck hash N leaves i (leaves.getD i 0) = some true ∧
    SMT.buildAndCheck hash N leaves i
      (leaves.getD (sibLeafIndex i) 0) = some true ∧
    ∀ x, x ≠ leaves.getD i 0 → x ≠ leaves.getD (sibLeafIndex i) 0 →
      SMT.buildAndCheck hash N leaves i x = none :=
  SMT.buildAndCheck_spec hash N leaves i hN hlen hi

/-- Witness for the amended C4 at the height-1 tree over leaves [1, 2],
proof generated for index 0: leaf value 1 verifies, the sibling value 2
verifies as well, and the unrelated value 7 produces an error. -/
theorem merkle_membership_witness :
    SMT.buildAndCheck wHash 1 [1, 2] 0 1 = some true ∧
    SMT.buildAndCheck wHash 1 [1, 2] 0 2 = some true ∧
    SMT.buildAndCheck wHash 1 [1, 2] 0 7 = none := by
  obtain ⟨h1, h2, h3⟩ :=
    merkle_membership wHash 1 [1, 2] 0 (by norm_num) (by norm_num) (by norm_num)
  exact ⟨h1, h2, h3 7 (by decide) (by decide)⟩

/-- Counterexample to C4 as stated: in the height-1 tree over leaves
[1, 2], check_membership of leaves[1] = 2 against the proof generated
for index 0 returns Ok(true), although leaves[1] = 2 differs from
leaves[0] = 1 and the claim requires false. -/
theorem check_membership_sibling_accepted :
    SMT.buildAndCheck wHash 1 [1, 2] 0 2 = some true ∧
      (2 : Nat) ≠ (1 : Nat) := by
  obtain ⟨h1, h2, h3⟩ :=
    SMT.buildAndCheck_spec wHash 1 [1, 2] 0 (by norm_num) (by norm_num)
      (by norm_num)
  exact ⟨h2, by norm_num⟩
